import Mathlib

/-!
Verification of the go-arangodb-migrator migration engine
(`pkg/migrator/migrator.go`) against its natural-language specification.

The Go source is shallowly embedded: JSON-ish dynamic values become the
inductive `Value`; Go maps (`map[string]interface{}`) become ordered
association lists; external store calls (the ArangoDB driver) become
oracle functions passed in as parameters; `error` returns become
`Except String` / explicit outcome types.  Go map iteration order is
unspecified; the embedding iterates association lists in list order
(the claims checked here do not depend on iteration order).
-/

namespace GoArangoMigrator

inductive Value where
  | null : Value
  | str : String → Value
  | int : Int → Value
  | bool : Bool → Value
  | arr : List Value → Value
  | obj : List (String × Value) → Value

def lookupKey : List (String × Value) → String → Option Value
  | [], _ => none
  | (k0, v0) :: rest, k => if k0 = k then some v0 else lookupKey rest k

def setKey : List (String × Value) → String → Value → List (String × Value)
  | [], k, v => [(k, v)]
  | (k0, v0) :: rest, k, v =>
      if k0 = k then (k, v) :: rest else (k0, v0) :: setKey rest k v

structure Operation where
  type : String
  name : String
  options : List (String × Value)

structure Migration where
  description : String
  up : List Operation
  down : List Operation

structure OperationResult where
  type : String
  name : String
  options : List (String × Value)
  result : List (String × Value)
  rollbackData : List (String × Value)

structure AppliedMigration where
  migrationNumber : String
  sha256 : String
  operationResults : List OperationResult

structure PendingMigration where
  migrationNumber : String
  migration : Migration
  hash : String
  filePath : String

structure MigrationFile where
  filename : String
  hash : String
  parsed : Except String Migration

inductive SubstResult where
  | ok : SubstResult
  | err (msg : String) : SubstResult
  | crash (msg : String) : SubstResult

def isPrefixList : List Char → List Char → Bool
  | [], _ => true
  | _ :: _, [] => false
  | c :: p, d :: s => if c.toNat = d.toNat then isPrefixList p s else false

def strStartsWith (s p : String) : Bool := isPrefixList p.data s.data

def strEndsWith (s p : String) : Bool := isPrefixList p.data.reverse s.data.reverse

def isSpaceChar (c : Char) : Bool := c.toNat = 32 || (9 ≤ c.toNat && c.toNat ≤ 13)

def strTrim (s : String) : String :=
  String.mk (((s.data.dropWhile isSpaceChar).reverse.dropWhile isSpaceChar).reverse)

def charListLe : List Char → List Char → Bool
  | [], _ => true
  | _ :: _, [] => false
  | c :: r1, d :: r2 =>
    if c.toNat < d.toNat then true
    else if d.toNat < c.toNat then false
    else charListLe r1 r2

def substStep (now : String) (sha : String → String)
    (doc : List (String × Value)) (k : String) :
    List (String × Value) × SubstResult :=
  match lookupKey doc k with
  | none => (doc, SubstResult.ok)
  | some v =>
    let doc1 := match v with
      | Value.str "NOW()" => setKey doc k (Value.str now)
      | _ => doc
    match v with
    | Value.str val =>
      if strStartsWith val "SHA256(" && strEndsWith val ")" then
        let field := strTrim ((val.drop 7).dropRight 1)
        match lookupKey doc1 field with
        | some (Value.str s) => (setKey doc1 k (Value.str (sha s)), SubstResult.ok)
        | some _ => (doc1, SubstResult.crash "interface conversion: interface is not string")
        | none => (doc1, SubstResult.err "no string field found in document for computing hash")
      else (doc1, SubstResult.ok)
    | _ => (doc1, SubstResult.ok)

def processKeys (now : String) (sha : String → String) :
    List String → List (String × Value) → List (String × Value) × SubstResult
  | [], doc => (doc, SubstResult.ok)
  | k :: ks, doc =>
    match substStep now sha doc k with
    | (doc1, SubstResult.ok) => processKeys now sha ks doc1
    | (doc1, r) => (doc1, r)

def processDocumentValues (now : String) (sha : String → String)
    (doc : List (String × Value)) : List (String × Value) × SubstResult :=
  processKeys now sha (doc.map Prod.fst) doc

def processUpdateSpecialValues (now : String)
    (options : List (String × Value)) : List (String × Value) :=
  options.map fun kv =>
    match kv with
    | (k, Value.str "NOW()") => (k, Value.str now)
    | kv => kv

structure EdgeDefinition where
  collection : String
  fromCollections : List String
  toCollections : List String

def unmarshalEdgeDefinition (options : List (String × Value)) :
    Except String EdgeDefinition := do
  let coll ← match lookupKey options "collection" with
    | none => pure ""
    | some (Value.str s) => pure s
    | some _ => throw "cannot unmarshal collection"
  let readColls : String → Except String (List String) := fun key =>
    match lookupKey options key with
    | none => pure []
    | some (Value.arr vs) =>
        vs.foldrM (fun v acc =>
          match v with
          | Value.str s => pure (s :: acc)
          | _ => throw "cannot unmarshal collection list") []
    | some _ => throw "cannot unmarshal collection list"
  let fromColls ← readColls "from"
  let toColls ← readColls "to"
  pure ⟨coll, fromColls, toColls⟩

def addEdgeDefinitionGo (getGraph : String → Except String Unit)
    (createEdgeDef : String → EdgeDefinition → Except String Unit)
    (name : String) (options : List (String × Value)) : Except String Unit :=
  match getGraph name with
  | Except.error e => Except.error ("failed to get graph: " ++ e)
  | Except.ok _ =>
    match unmarshalEdgeDefinition options with
    | Except.error e => Except.error ("failed to unmarshal edge definition options: " ++ e)
    | Except.ok ed =>
      let _ := createEdgeDef name ed
      Except.ok ()

def addEdgeDefinitionWithTracking (getGraph : String → Except String Unit)
    (createEdgeDef : String → EdgeDefinition → Except String Unit)
    (name : String) (options : List (String × Value)) :
    OperationResult × Option String :=
  let result : OperationResult := ⟨"addEdgeDefinition", name, options, [], []⟩
  match addEdgeDefinitionGo getGraph createEdgeDef name options with
  | Except.error e => (result, some e)
  | Except.ok _ =>
    ({ result with
        result := [("graphName", Value.str name),
                   ("collection", (lookupKey options "collection").getD Value.null)] },
     none)

inductive GoOutcome where
  | ok : GoOutcome
  | goErr (msg : String) : GoOutcome
  | goCrash (msg : String) : GoOutcome

def addDocumentWithTracking (now : String) (sha : String → String)
    (getColl : String → Except String Unit)
    (createDoc : String → List (String × Value) → Except String String)
    (name : String) (options : List (String × Value)) :
    OperationResult × List (String × Value) × GoOutcome :=
  let result0 : OperationResult := ⟨"addDocument", name, options, [], []⟩
  let result1 :=
    match lookupKey options "document" with
    | some (Value.obj document) =>
        { result0 with rollbackData := [("originalDocument", Value.obj document)] }
    | _ => result0
  match getColl name with
  | Except.error e =>
      (result1, options, GoOutcome.goErr ("failed to get collection for document addition: " ++ e))
  | Except.ok _ =>
    match lookupKey options "document" with
    | some (Value.obj document) =>
      match processDocumentValues now sha document with
      | (doc1, SubstResult.ok) =>
        let options1 := setKey options "document" (Value.obj doc1)
        match createDoc name doc1 with
        | Except.error e =>
            ({ result1 with options := options1 }, options1,
             GoOutcome.goErr ("failed to add document: " ++ e))
        | Except.ok key =>
            ({ result1 with
                options := options1
                result := [("documentID", Value.str key)] }, options1, GoOutcome.ok)
      | (doc1, SubstResult.err m) =>
          ({ result1 with options := setKey options "document" (Value.obj doc1) },
           setKey options "document" (Value.obj doc1), GoOutcome.goErr m)
      | (doc1, SubstResult.crash m) =>
          ({ result1 with options := setKey options "document" (Value.obj doc1) },
           setKey options "document" (Value.obj doc1), GoOutcome.goCrash m)
    | _ => (result1, options, GoOutcome.goErr "document field missing or not an object")

def updateDocumentWithTracking (now : String)
    (getColl : String → Except String Unit)
    (readDoc : String → String → Except String (List (String × Value)))
    (updateDoc : String → String → List (String × Value) → Except String Unit)
    (name : String) (options : List (String × Value)) :
    OperationResult × List (String × Value) × GoOutcome :=
  let result0 : OperationResult := ⟨"updateDocument", name, options, [], []⟩
  match getColl name with
  | Except.error e =>
      (result0, options, GoOutcome.goErr ("failed to get collection for document update: " ++ e))
  | Except.ok _ =>
    match lookupKey options "_key" with
    | some (Value.str key) =>
      match readDoc name key with
      | Except.error e =>
          (result0, options,
           GoOutcome.goErr ("failed to read original document for rollback: " ++ e))
      | Except.ok originalDoc =>
        let result1 := { result0 with
          rollbackData := [("originalDocument", Value.obj originalDoc)],
          result := [("documentKey", Value.str key)] }
        let options1 := processUpdateSpecialValues now options
        match updateDoc name key options1 with
        | Except.error e =>
            ({ result1 with options := options1 }, options1,
             GoOutcome.goErr ("failed to update document: " ++ e))
        | Except.ok _ => ({ result1 with options := options1 }, options1, GoOutcome.ok)
    | _ => (result0, options, GoOutcome.goErr "document key missing or not a string")

def dispatchTypes : List String :=
  ["createCollection", "createPersistentIndex", "createGeoIndex", "createGraph",
   "addEdgeDefinition", "deleteIndex", "deleteEdgeDefinition", "deleteCollection",
   "addDocument", "updateDocument", "deleteDocument"]

def StoreFn : Type :=
  Operation → Except String (List (String × Value) × List (String × Value))

def dispatchOp (store : StoreFn) (op : Operation) :
    Bool × Except String OperationResult :=
  if dispatchTypes.contains op.type then
    match store op with
    | Except.ok (res, rb) => (true, Except.ok ⟨op.type, op.name, op.options, res, rb⟩)
    | Except.error e => (true, Except.error e)
  else (false, Except.error ("unsupported operation type: " ++ op.type))

inductive RollbackAction where
  | delColl (name : String)
  | delIndex (name : String) (options : List (String × Value))
  | delGraph (name : String)
  | delEdgeDef (name : String) (options : List (String × Value))
  | delDocByID (coll : String) (docID : String)
  | delDoc (coll : String) (options : List (String × Value))
  | restoreDoc (coll : String) (doc : List (String × Value))

def rollbackStep (r : OperationResult) : Except String (Option RollbackAction) :=
  match r.type with
  | "createCollection" => Except.ok (some (RollbackAction.delColl r.name))
  | "createPersistentIndex" => Except.ok (some (RollbackAction.delIndex r.name r.options))
  | "createGeoIndex" => Except.ok (some (RollbackAction.delIndex r.name r.options))
  | "createGraph" => Except.ok (some (RollbackAction.delGraph r.name))
  | "addEdgeDefinition" => Except.ok (some (RollbackAction.delEdgeDef r.name r.options))
  | "addDocument" =>
    match lookupKey r.result "documentID" with
    | some (Value.str docID) => Except.ok (some (RollbackAction.delDocByID r.name docID))
    | _ => Except.ok (some (RollbackAction.delDoc r.name r.options))
  | "updateDocument" =>
    match lookupKey r.rollbackData "originalDocument" with
    | some (Value.obj doc) => Except.ok (some (RollbackAction.restoreDoc r.name doc))
    | _ => Except.error "cannot rollback document update - no original state available"
  | "deleteCollection" => Except.error "cannot rollback collection deletion"
  | "deleteIndex" => Except.error "cannot rollback index deletion"
  | "deleteEdgeDefinition" => Except.error "cannot rollback edge definition deletion"
  | "deleteDocument" =>
    match lookupKey r.rollbackData "originalDocument" with
    | some (Value.obj doc) => Except.ok (some (RollbackAction.restoreDoc r.name doc))
    | _ => Except.error "cannot rollback document deletion - no original state available"
  | _ => Except.ok none

def RbFn : Type := RollbackAction → Except String Unit

def autoRollbackGo (rbStore : RbFn) :
    List OperationResult → List RollbackAction × Option String
  | [] => ([], none)
  | r :: rest =>
    match rollbackStep r with
    | Except.error e => ([], some ("failed to rollback operation " ++ r.type ++ ": " ++ e))
    | Except.ok none => autoRollbackGo rbStore rest
    | Except.ok (some a) =>
      match rbStore a with
      | Except.error e => ([a], some ("failed to rollback operation " ++ r.type ++ ": " ++ e))
      | Except.ok _ =>
        let res := autoRollbackGo rbStore rest
        (a :: res.fst, res.snd)

def autoRollbackRun (rbStore : RbFn) (ops : List OperationResult) :
    List RollbackAction × Option String :=
  autoRollbackGo rbStore ops.reverse

def legacyOperationOf (op : Operation) : OperationResult :=
  ⟨op.type, op.name, op.options, [], []⟩

inductive Event where
  | execOp (migNumber : String) (op : Operation)
  | rollbackAction (a : RollbackAction)
  | ledgerWrite (rec : AppliedMigration)

inductive UpResult where
  | success (trace : List Event) (migOps : List OperationResult)
      (appliedOps : List OperationResult) : UpResult
  | failed (trace : List Event) (msg : String) : UpResult

def applyUp (store : StoreFn) (rbStore : RbFn) (autoRB : Bool) (migNum : String) :
    List Operation → List OperationResult → List OperationResult → UpResult
  | [], migOps, appliedOps => UpResult.success [] migOps appliedOps
  | op :: rest, migOps, appliedOps =>
    match dispatchOp store op with
    | (_, Except.ok r) =>
      match applyUp store rbStore autoRB migNum rest (migOps ++ [r]) (appliedOps ++ [r]) with
      | UpResult.success t m a => UpResult.success (Event.execOp migNum op :: t) m a
      | UpResult.failed t e => UpResult.failed (Event.execOp migNum op :: t) e
    | (called, Except.error e) =>
      let execEvs := if called then [Event.execOp migNum op] else []
      if autoRB then
        let rb := autoRollbackRun rbStore appliedOps
        let evs := execEvs ++ rb.fst.map Event.rollbackAction
        match rb.snd with
        | some re => UpResult.failed evs ("failed to auto-rollback migrations: " ++ re)
        | none =>
          UpResult.failed evs ("migration operation failed for migration " ++ migNum ++ ": " ++ e)
      else
        let rb := autoRollbackRun rbStore [legacyOperationOf op]
        let evs := execEvs ++ rb.fst.map Event.rollbackAction
        match rb.snd with
        | some re => UpResult.failed evs ("failed to rollback migration: " ++ re)
        | none =>
          UpResult.failed evs ("migration operation failed for migration " ++ migNum ++ ": " ++ e)

def runPending (store : StoreFn) (rbStore : RbFn) (autoRB : Bool) :
    List PendingMigration → List OperationResult → List AppliedMigration →
    List Event × Option String
  | [], _, appliedMigs => (appliedMigs.map Event.ledgerWrite, none)
  | pm :: rest, appliedOps, appliedMigs =>
    match applyUp store rbStore autoRB pm.migrationNumber pm.migration.up [] appliedOps with
    | UpResult.success t migOps appliedOps1 =>
      let res := runPending store rbStore autoRB rest appliedOps1
        (appliedMigs ++ [⟨pm.migrationNumber, pm.hash, migOps⟩])
      (t ++ res.fst, res.snd)
    | UpResult.failed t e => (t, some e)

def trimSuffixJson (s : String) : String :=
  if strEndsWith s ".json" then s.dropRight 5 else s

def ledgerLookup : List AppliedMigration → String → Option AppliedMigration
  | [], _ => none
  | r :: rest, id => if r.migrationNumber = id then some r else ledgerLookup rest id

def processFile (force : Bool) (ledger : List AppliedMigration)
    (f : MigrationFile) : Except String (Option PendingMigration) :=
  if strEndsWith f.filename ".json" then
    match ledgerLookup ledger (trimSuffixJson f.filename) with
    | some am =>
      if am.sha256 ≠ f.hash && !force then
        Except.error ("migration file has been modified since last applied: " ++
          trimSuffixJson f.filename)
      else
        -- already applied (DocumentExists): skip
        Except.ok none
    | none =>
      match f.parsed with
      | Except.error e => Except.error e
      | Except.ok m =>
        if m.up.isEmpty then
          Except.error ("migration file " ++ trimSuffixJson f.filename ++
            " does not include a valid up list of migrations to apply")
        else if !m.down.isEmpty then
          Except.error ("migration file " ++ trimSuffixJson f.filename ++
            " has a down list of migrations, but down migrations are not yet supported")
        else
          Except.ok (some ⟨trimSuffixJson f.filename, m, f.hash, f.filename⟩)
  else
    -- unrecognized file suffix: warn and skip
    Except.ok none

def collectGo (force : Bool) (ledger : List AppliedMigration) :
    List MigrationFile → Except String (List PendingMigration)
  | [] => Except.ok []
  | f :: rest =>
    match processFile force ledger f with
    | Except.error e => Except.error e
    | Except.ok none => collectGo force ledger rest
    | Except.ok (some pm) =>
      match collectGo force ledger rest with
      | Except.error e => Except.error e
      | Except.ok pms => Except.ok (pm :: pms)

def fileLe (a b : MigrationFile) : Prop :=
  charListLe a.filename.data b.filename.data = true

instance : DecidableRel fileLe := fun a b =>
  inferInstanceAs (Decidable (charListLe a.filename.data b.filename.data = true))

def sortFiles (dir : List MigrationFile) : List MigrationFile :=
  List.insertionSort fileLe dir

def collectPendingMigrations (force : Bool) (ledger : List AppliedMigration)
    (dir : List MigrationFile) : Except String (List PendingMigration) :=
  collectGo force ledger (sortFiles dir)

def migrateArangoDatabase (store : StoreFn) (rbStore : RbFn)
    (force autoRB : Bool) (ledger : List AppliedMigration)
    (dir : List MigrationFile) : List Event × Option String :=
  match collectPendingMigrations force ledger dir with
  | Except.error e => ([], some e)
  | Except.ok pending =>
    if pending.isEmpty then ([], none)
    else runPending store rbStore autoRB pending [] []

def migSeq : List Event → List String
  | [] => []
  | Event.execOp mn _ :: rest => mn :: migSeq rest
  | _ :: rest => migSeq rest

def rollbackActsEv : List Event → List RollbackAction
  | [] => []
  | Event.rollbackAction a :: rest => a :: rollbackActsEv rest
  | _ :: rest => rollbackActsEv rest

def ledgerRecsOf : List Event → List AppliedMigration
  | [] => []
  | Event.ledgerWrite r :: rest => r :: ledgerRecsOf rest
  | _ :: rest => ledgerRecsOf rest

def ledgerIds (evs : List Event) : List String :=
  (ledgerRecsOf evs).map (·.migrationNumber)

def ledgerAfter (ledger : List AppliedMigration) (evs : List Event) :
    List AppliedMigration :=
  ledger ++ ledgerRecsOf evs

def allOps (pending : List PendingMigration) : List Operation :=
  pending.foldr (fun pm acc => pm.migration.up ++ acc) []

def succeededBeforeFailure (store : StoreFn) :
    List Operation → List OperationResult × Option Operation
  | [] => ([], none)
  | op :: rest =>
    match dispatchOp store op with
    | (_, Except.ok r) =>
      let res := succeededBeforeFailure store rest
      (r :: res.fst, res.snd)
    | (_, Except.error _) => ([], some op)

def specOperationTable : List String :=
  ["createCollection", "deleteCollection", "createPersistentIndex", "createGeoIndex",
   "deleteIndex", "createGraph", "deleteGraph", "addEdgeDefinition",
   "deleteEdgeDefinition", "addDocument", "updateDocument", "deleteDocument"]

def expectedMigSeq : List PendingMigration → List String
  | [] => []
  | pm :: rest => (pm.migration.up.map fun _ => pm.migrationNumber) ++ expectedMigSeq rest

def jsonId (f : MigrationFile) : Option String :=
  if strEndsWith f.filename ".json" then some (trimSuffixJson f.filename) else none

def jsonIds (fs : List MigrationFile) : List String :=
  fs.filterMap jsonId

def goodFile (f : MigrationFile) : Prop :=
  strEndsWith f.filename ".json" = true →
    ∃ m, f.parsed = Except.ok m ∧ m.up.isEmpty = false ∧ m.down.isEmpty = true

def storeOkW : StoreFn := fun _ => Except.ok ([], [])

def storeFailB : StoreFn := fun op =>
  if op.name = "B" then Except.error "duplicate name" else Except.ok ([], [])

def rbOkW : RbFn := fun _ => Except.ok ()

def opA : Operation := ⟨"createCollection", "A", [("type", Value.str "document")]⟩

def opB : Operation := ⟨"createCollection", "B", [("type", Value.str "document")]⟩

def pendingC1 : List PendingMigration :=
  [⟨"000001", ⟨"demo", [opA, opB], []⟩, "h1", "000001.json"⟩]

def pendingC2 : List PendingMigration :=
  [⟨"000001", ⟨"first", [opA], []⟩, "h1", "000001.json"⟩,
   ⟨"000002", ⟨"second", [opB], []⟩, "h2", "000002.json"⟩]

def okGraph : String → Except String Unit := fun _ => Except.ok ()

def failingCreateEdgeDef : String → EdgeDefinition → Except String Unit :=
  fun _ _ => Except.error "edge collection missing"

def edgeOpts : List (String × Value) :=
  [("collection", Value.str "user_reports_event"),
   ("from", Value.arr [Value.str "users"]),
   ("to", Value.arr [Value.str "events"])]

def idDigest : String → String := fun s => s

def okColl : String → Except String Unit := fun _ => Except.ok ()

def okRead : String → String → Except String (List (String × Value)) :=
  fun _ _ => Except.ok [("old", Value.str "doc")]

def okUpd : String → String → List (String × Value) → Except String Unit :=
  fun _ _ _ => Except.ok ()

def okCreateDoc : String → List (String × Value) → Except String String :=
  fun _ _ => Except.ok "k42"

def updOpts : List (String × Value) :=
  [("_key", Value.str "k1"), ("isbn", Value.str "123"),
   ("hash", Value.str "SHA256(isbn)")]

def addOpts : List (String × Value) :=
  [("document", Value.obj [("createdAt", Value.str "NOW()")])]

def tamperedFile : MigrationFile :=
  ⟨"0001.json", "newhash", Except.ok ⟨"d", [opA], []⟩⟩

def tamperLedger : List AppliedMigration := [⟨"0001", "oldhash", []⟩]

def fileX : MigrationFile := ⟨"000002_x.json", "hx", Except.ok ⟨"x", [opA], []⟩⟩

def fileY : MigrationFile := ⟨"000001_y.json", "hy", Except.ok ⟨"y", [opA], []⟩⟩

def pendingXY : List PendingMigration :=
  [⟨"000001_y", ⟨"y", [opA], []⟩, "hy", "000001_y.json"⟩,
   ⟨"000002_x", ⟨"x", [opA], []⟩, "hx", "000002_x.json"⟩]

def file2 : MigrationFile := ⟨"2.json", "h2", Except.ok ⟨"two", [opA], []⟩⟩

def file10 : MigrationFile := ⟨"10.json", "h10", Except.ok ⟨"ten", [opA], []⟩⟩

def c8File : MigrationFile := ⟨"0001.json", "h1", Except.ok ⟨"d", [opA], []⟩⟩

/-! ### Theorems -/

theorem migSeq_append (a b : List Event) : migSeq (a ++ b) = migSeq a ++ migSeq b := by
  induction a with
  | nil => rfl
  | cons e rest ih => cases e <;> simp [migSeq, ih]

theorem rollbackActsEv_append (a b : List Event) :
    rollbackActsEv (a ++ b) = rollbackActsEv a ++ rollbackActsEv b := by
  induction a with
  | nil => rfl
  | cons e rest ih => cases e <;> simp [rollbackActsEv, ih]

theorem ledgerRecsOf_append (a b : List Event) :
    ledgerRecsOf (a ++ b) = ledgerRecsOf a ++ ledgerRecsOf b := by
  induction a with
  | nil => rfl
  | cons e rest ih => cases e <;> simp [ledgerRecsOf, ih]

theorem migSeq_map_execOp (mn : String) (ops : List Operation) :
    migSeq (ops.map (Event.execOp mn)) = ops.map fun _ => mn := by
  induction ops with
  | nil => rfl
  | cons op rest ih =>
    show mn :: migSeq (rest.map (Event.execOp mn)) = mn :: rest.map fun _ => mn
    rw [ih]

theorem rollbackActsEv_map_execOp (mn : String) (ops : List Operation) :
    rollbackActsEv (ops.map (Event.execOp mn)) = [] := by
  induction ops with
  | nil => rfl
  | cons op rest ih =>
    show rollbackActsEv (rest.map (Event.execOp mn)) = []
    exact ih

theorem ledgerRecsOf_map_execOp (mn : String) (ops : List Operation) :
    ledgerRecsOf (ops.map (Event.execOp mn)) = [] := by
  induction ops with
  | nil => rfl
  | cons op rest ih =>
    show ledgerRecsOf (rest.map (Event.execOp mn)) = []
    exact ih

theorem rollbackActsEv_map_rollback (acts : List RollbackAction) :
    rollbackActsEv (acts.map Event.rollbackAction) = acts := by
  induction acts with
  | nil => rfl
  | cons a rest ih =>
    show a :: rollbackActsEv (rest.map Event.rollbackAction) = a :: rest
    rw [ih]

theorem ledgerRecsOf_map_rollback (acts : List RollbackAction) :
    ledgerRecsOf (acts.map Event.rollbackAction) = [] := by
  induction acts with
  | nil => rfl
  | cons a rest ih =>
    show ledgerRecsOf (rest.map Event.rollbackAction) = []
    exact ih

theorem migSeq_map_rollback (acts : List RollbackAction) :
    migSeq (acts.map Event.rollbackAction) = [] := by
  induction acts with
  | nil => rfl
  | cons a rest ih =>
    show migSeq (rest.map Event.rollbackAction) = []
    exact ih

theorem ledgerRecsOf_map_ledgerWrite (recs : List AppliedMigration) :
    ledgerRecsOf (recs.map Event.ledgerWrite) = recs := by
  induction recs with
  | nil => rfl
  | cons r rest ih =>
    show r :: ledgerRecsOf (rest.map Event.ledgerWrite) = r :: rest
    rw [ih]

theorem migSeq_map_ledgerWrite (recs : List AppliedMigration) :
    migSeq (recs.map Event.ledgerWrite) = [] := by
  induction recs with
  | nil => rfl
  | cons r rest ih =>
    show migSeq (rest.map Event.ledgerWrite) = []
    exact ih

theorem rollbackActsEv_map_ledgerWrite (recs : List AppliedMigration) :
    rollbackActsEv (recs.map Event.ledgerWrite) = [] := by
  induction recs with
  | nil => rfl
  | cons r rest ih =>
    show rollbackActsEv (rest.map Event.ledgerWrite) = []
    exact ih

theorem sbf_append (store : StoreFn) (l1 l2 : List Operation) :
    succeededBeforeFailure store (l1 ++ l2) =
      match (succeededBeforeFailure store l1).snd with
      | some op => ((succeededBeforeFailure store l1).fst, some op)
      | none => ((succeededBeforeFailure store l1).fst ++
          (succeededBeforeFailure store l2).fst,
          (succeededBeforeFailure store l2).snd) := by
  induction l1 with
  | nil => simp [succeededBeforeFailure]
  | cons op rest ih =>
    cases hd : dispatchOp store op with
    | mk called exr =>
      cases exr with
      | ok r =>
        simp only [List.cons_append, succeededBeforeFailure, hd, List.append_eq]
        rw [ih]
        cases hsnd : (succeededBeforeFailure store rest).snd <;> simp
      | error e => simp [succeededBeforeFailure, hd]

theorem applyUp_success_shape (store : StoreFn) (rb : RbFn) (aRB : Bool) (mn : String) :
    ∀ (ops : List Operation) (migOps appliedOps : List OperationResult)
      (t : List Event) (m a : List OperationResult),
      applyUp store rb aRB mn ops migOps appliedOps = UpResult.success t m a →
      t = ops.map (Event.execOp mn) ∧
      m = migOps ++ (succeededBeforeFailure store ops).fst ∧
      a = appliedOps ++ (succeededBeforeFailure store ops).fst ∧
      (succeededBeforeFailure store ops).snd = none := by
  intro ops
  induction ops with
  | nil =>
    intro migOps appliedOps t m a h
    simp only [applyUp] at h
    cases h
    simp [succeededBeforeFailure]
  | cons op rest ih =>
    intro migOps appliedOps t m a h
    simp only [applyUp] at h
    cases hd : dispatchOp store op with
    | mk called exr =>
      rw [hd] at h
      cases exr with
      | ok r =>
        simp only at h
        cases hrec : applyUp store rb aRB mn rest (migOps ++ [r]) (appliedOps ++ [r]) with
        | success t1 m1 a1 =>
          rw [hrec] at h
          cases h
          obtain ⟨ht, hm, ha, hn⟩ := ih _ _ _ _ _ hrec
          refine ⟨by simp [ht], ?_, ?_, ?_⟩ <;>
            simp [succeededBeforeFailure, hd, hm, ha, hn]
        | failed t1 e1 =>
          rw [hrec] at h
          cases h
      | error e =>
        simp only at h
        cases aRB <;> simp only [Bool.false_eq_true, if_true, if_false, reduceIte] at h <;>
          [skip; skip] <;>
          first
          | (cases hrb : (autoRollbackRun rb [legacyOperationOf op]).snd <;>
              rw [hrb] at h <;> cases h)
          | (cases hrb : (autoRollbackRun rb appliedOps).snd <;>
              rw [hrb] at h <;> cases h)

theorem applyUp_failed_batch (store : StoreFn) (rb : RbFn) (mn : String) :
    ∀ (ops : List Operation) (migOps appliedOps : List OperationResult)
      (t : List Event) (e : String),
      applyUp store rb true mn ops migOps appliedOps = UpResult.failed t e →
      rollbackActsEv t =
        (autoRollbackRun rb (appliedOps ++ (succeededBeforeFailure store ops).fst)).fst ∧
      ledgerRecsOf t = [] ∧
      ∃ op, (succeededBeforeFailure store ops).snd = some op := by
  intro ops
  induction ops with
  | nil =>
    intro migOps appliedOps t e h
    simp only [applyUp] at h
    exact UpResult.noConfusion h
  | cons op rest ih =>
    intro migOps appliedOps t e h
    simp only [applyUp] at h
    cases hd : dispatchOp store op with
    | mk called exr =>
      rw [hd] at h
      cases exr with
      | ok r =>
        simp only at h
        cases hrec : applyUp store rb true mn rest (migOps ++ [r]) (appliedOps ++ [r]) with
        | success t1 m1 a1 =>
          rw [hrec] at h
          cases h
        | failed t1 e1 =>
          rw [hrec] at h
          cases h
          obtain ⟨hrba, hled, op1, hop1⟩ := ih _ _ _ _ hrec
          refine ⟨?_, ?_, op1, ?_⟩
          · show rollbackActsEv t1 = _
            rw [hrba]
            simp [succeededBeforeFailure, hd]
          · show ledgerRecsOf t1 = []
            exact hled
          · simp [succeededBeforeFailure, hd, hop1]
      | error e0 =>
        simp only [if_true] at h
        cases called with
        | true =>
          simp only [List.singleton_append] at h
          cases hrb : (autoRollbackRun rb appliedOps).snd with
          | none =>
            rw [hrb] at h
            cases h
            refine ⟨?_, ?_, op, ?_⟩ <;>
              simp [rollbackActsEv, ledgerRecsOf, List.filterMap_cons,
                List.filterMap_append, rollbackActsEv_map_rollback,
                ledgerRecsOf_map_rollback, succeededBeforeFailure, hd]
          | some re =>
            rw [hrb] at h
            cases h
            refine ⟨?_, ?_, op, ?_⟩ <;>
              simp [rollbackActsEv, ledgerRecsOf, List.filterMap_cons,
                List.filterMap_append, rollbackActsEv_map_rollback,
                ledgerRecsOf_map_rollback, succeededBeforeFailure, hd]
        | false =>
          cases hrb : (autoRollbackRun rb appliedOps).snd with
          | none =>
            rw [hrb] at h
            cases h
            refine ⟨?_, ?_, op, ?_⟩ <;>
              simp [rollbackActsEv, ledgerRecsOf, rollbackActsEv_map_rollback,
                ledgerRecsOf_map_rollback, succeededBeforeFailure, hd]
          | some re =>
            rw [hrb] at h
            cases h
            refine ⟨?_, ?_, op, ?_⟩ <;>
              simp [rollbackActsEv, ledgerRecsOf, rollbackActsEv_map_rollback,
                ledgerRecsOf_map_rollback, succeededBeforeFailure, hd]

theorem applyUp_failed_legacy (store : StoreFn) (rb : RbFn) (mn : String) :
    ∀ (ops : List Operation) (migOps appliedOps : List OperationResult)
      (t : List Event) (e : String),
      applyUp store rb false mn ops migOps appliedOps = UpResult.failed t e →
      ledgerRecsOf t = [] ∧
      ∃ op, (succeededBeforeFailure store ops).snd = some op ∧
        rollbackActsEv t = (autoRollbackRun rb [legacyOperationOf op]).fst := by
  intro ops
  induction ops with
  | nil =>
    intro migOps appliedOps t e h
    simp only [applyUp] at h
    exact UpResult.noConfusion h
  | cons op rest ih =>
    intro migOps appliedOps t e h
    simp only [applyUp] at h
    cases hd : dispatchOp store op with
    | mk called exr =>
      rw [hd] at h
      cases exr with
      | ok r =>
        simp only at h
        cases hrec : applyUp store rb false mn rest (migOps ++ [r]) (appliedOps ++ [r]) with
        | success t1 m1 a1 =>
          rw [hrec] at h
          cases h
        | failed t1 e1 =>
          rw [hrec] at h
          cases h
          obtain ⟨hled, op1, hop1, hrba⟩ := ih _ _ _ _ hrec
          refine ⟨?_, op1, ?_, ?_⟩
          · show ledgerRecsOf t1 = []
            exact hled
          · simp [succeededBeforeFailure, hd, hop1]
          · show rollbackActsEv t1 = _
            exact hrba
      | error e0 =>
        simp only [Bool.false_eq_true, if_false, reduceIte] at h
        cases called with
        | true =>
          simp only [List.singleton_append] at h
          cases hrb : (autoRollbackRun rb [legacyOperationOf op]).snd with
          | none =>
            rw [hrb] at h
            cases h
            refine ⟨?_, op, ?_, ?_⟩ <;>
              simp [rollbackActsEv, ledgerRecsOf, List.filterMap_cons,
                List.filterMap_append, rollbackActsEv_map_rollback,
                ledgerRecsOf_map_rollback, succeededBeforeFailure, hd]
          | some re =>
            rw [hrb] at h
            cases h
            refine ⟨?_, op, ?_, ?_⟩ <;>
              simp [rollbackActsEv, ledgerRecsOf, List.filterMap_cons,
                List.filterMap_append, rollbackActsEv_map_rollback,
                ledgerRecsOf_map_rollback, succeededBeforeFailure, hd]
        | false =>
          cases hrb : (autoRollbackRun rb [legacyOperationOf op]).snd with
          | none =>
            rw [hrb] at h
            cases h
            refine ⟨?_, op, ?_, ?_⟩ <;>
              simp [rollbackActsEv, ledgerRecsOf, rollbackActsEv_map_rollback,
                ledgerRecsOf_map_rollback, succeededBeforeFailure, hd]
          | some re =>
            rw [hrb] at h
            cases h
            refine ⟨?_, op, ?_, ?_⟩ <;>
              simp [rollbackActsEv, ledgerRecsOf, rollbackActsEv_map_rollback,
                ledgerRecsOf_map_rollback, succeededBeforeFailure, hd]

theorem runPending_success_shape (store : StoreFn) (rb : RbFn) (aRB : Bool) :
    ∀ (pending : List PendingMigration) (appliedOps : List OperationResult)
      (appliedMigs : List AppliedMigration) (evs : List Event),
      runPending store rb aRB pending appliedOps appliedMigs = (evs, none) →
      migSeq evs = expectedMigSeq pending ∧
      (ledgerRecsOf evs).map (fun r => (r.migrationNumber, r.sha256)) =
        appliedMigs.map (fun r => (r.migrationNumber, r.sha256)) ++
          pending.map (fun pm => (pm.migrationNumber, pm.hash)) ∧
      rollbackActsEv evs = [] := by
  intro pending
  induction pending with
  | nil =>
    intro appliedOps appliedMigs evs h
    simp only [runPending] at h
    injection h with h1 h2
    subst h1
    simp [migSeq_map_ledgerWrite, ledgerRecsOf_map_ledgerWrite,
      rollbackActsEv_map_ledgerWrite, expectedMigSeq]
  | cons pm rest ih =>
    intro appliedOps appliedMigs evs h
    simp only [runPending] at h
    cases hap : applyUp store rb aRB pm.migrationNumber pm.migration.up [] appliedOps with
    | success t migOps a1 =>
      rw [hap] at h
      simp only at h
      cases hres : runPending store rb aRB rest a1
          (appliedMigs ++ [⟨pm.migrationNumber, pm.hash, migOps⟩]) with
      | mk evs2 res2 =>
        rw [hres] at h
        injection h with h1 h2
        subst h1
        subst h2
        obtain ⟨hm, hl, hr⟩ := ih _ _ _ hres
        obtain ⟨ht, _, _, _⟩ := applyUp_success_shape store rb aRB pm.migrationNumber _ _ _ _ _ _ hap
        subst ht
        refine ⟨?_, ?_, ?_⟩
        · rw [migSeq_append, migSeq_map_execOp, hm]
          rfl
        · rw [ledgerRecsOf_append, ledgerRecsOf_map_execOp, List.nil_append, hl]
          simp
        · rw [rollbackActsEv_append, rollbackActsEv_map_execOp, hr]
          rfl
    | failed t e =>
      rw [hap] at h
      simp only at h
      injection h with h1 h2
      exact Option.noConfusion h2

theorem runPending_failed_batch (store : StoreFn) (rb : RbFn) :
    ∀ (pending : List PendingMigration) (appliedOps : List OperationResult)
      (appliedMigs : List AppliedMigration) (evs : List Event) (e : String),
      runPending store rb true pending appliedOps appliedMigs = (evs, some e) →
      ledgerRecsOf evs = [] ∧
      rollbackActsEv evs =
        (autoRollbackRun rb
          (appliedOps ++ (succeededBeforeFailure store (allOps pending)).fst)).fst ∧
      ∃ op, (succeededBeforeFailure store (allOps pending)).snd = some op := by
  intro pending
  induction pending with
  | nil =>
    intro appliedOps appliedMigs evs e h
    simp only [runPending] at h
    injection h with h1 h2
    exact Option.noConfusion h2
  | cons pm rest ih =>
    intro appliedOps appliedMigs evs e h
    simp only [runPending] at h
    cases hap : applyUp store rb true pm.migrationNumber pm.migration.up [] appliedOps with
    | success t migOps a1 =>
      rw [hap] at h
      simp only at h
      cases hres : runPending store rb true rest a1
          (appliedMigs ++ [⟨pm.migrationNumber, pm.hash, migOps⟩]) with
      | mk evs2 res2 =>
        rw [hres] at h
        injection h with h1 h2
        subst h1
        subst h2
        obtain ⟨hl, hr, op1, hop1⟩ := ih _ _ _ _ hres
        obtain ⟨ht, _, ha1, hn⟩ := applyUp_success_shape store rb true pm.migrationNumber _ _ _ _ _ _ hap
        subst ht
        subst ha1
        have hall : allOps (pm :: rest) = pm.migration.up ++ allOps rest := rfl
        refine ⟨?_, ?_, op1, ?_⟩
        · rw [ledgerRecsOf_append, ledgerRecsOf_map_execOp, List.nil_append, hl]
        · rw [rollbackActsEv_append, rollbackActsEv_map_execOp, List.nil_append, hr,
            hall, sbf_append store]
          rw [hn]
          simp [List.append_assoc]
        · rw [hall, sbf_append store, hn]
          simpa using hop1
    | failed t e1 =>
      rw [hap] at h
      simp only at h
      injection h with h1 h2
      subst h1
      injection h2 with h2
      obtain ⟨hr, hl, op1, hop1⟩ := applyUp_failed_batch store rb pm.migrationNumber _ _ _ _ _ hap
      have hall : allOps (pm :: rest) = pm.migration.up ++ allOps rest := rfl
      refine ⟨hl, ?_, op1, ?_⟩
      · rw [hr, hall, sbf_append store, hop1]
      · rw [hall, sbf_append store, hop1]

theorem runPending_failed_legacy (store : StoreFn) (rb : RbFn) :
    ∀ (pending : List PendingMigration) (appliedOps : List OperationResult)
      (appliedMigs : List AppliedMigration) (evs : List Event) (e : String),
      runPending store rb false pending appliedOps appliedMigs = (evs, some e) →
      ledgerRecsOf evs = [] ∧
      ∃ op, (succeededBeforeFailure store (allOps pending)).snd = some op ∧
        rollbackActsEv evs = (autoRollbackRun rb [legacyOperationOf op]).fst := by
  intro pending
  induction pending with
  | nil =>
    intro appliedOps appliedMigs evs e h
    simp only [runPending] at h
    injection h with h1 h2
    exact Option.noConfusion h2
  | cons pm rest ih =>
    intro appliedOps appliedMigs evs e h
    simp only [runPending] at h
    cases hap : applyUp store rb false pm.migrationNumber pm.migration.up [] appliedOps with
    | success t migOps a1 =>
      rw [hap] at h
      simp only at h
      cases hres : runPending store rb false rest a1
          (appliedMigs ++ [⟨pm.migrationNumber, pm.hash, migOps⟩]) with
      | mk evs2 res2 =>
        rw [hres] at h
        injection h with h1 h2
        subst h1
        subst h2
        obtain ⟨hl, op1, hop1, hr⟩ := ih _ _ _ _ hres
        obtain ⟨ht, _, _, hn⟩ := applyUp_success_shape store rb false pm.migrationNumber _ _ _ _ _ _ hap
        subst ht
        have hall : allOps (pm :: rest) = pm.migration.up ++ allOps rest := rfl
        refine ⟨?_, op1, ?_, ?_⟩
        · rw [ledgerRecsOf_append, ledgerRecsOf_map_execOp, List.nil_append, hl]
        · rw [hall, sbf_append store, hn]
          simpa using hop1
        · rw [rollbackActsEv_append, rollbackActsEv_map_execOp, List.nil_append, hr]
    | failed t e1 =>
      rw [hap] at h
      simp only at h
      injection h with h1 h2
      subst h1
      injection h2 with h2
      obtain ⟨hl, op1, hop1, hr⟩ := applyUp_failed_legacy store rb pm.migrationNumber _ _ _ _ _ hap
      have hall : allOps (pm :: rest) = pm.migration.up ++ allOps rest := rfl
      refine ⟨hl, op1, ?_, hr⟩
      rw [hall, sbf_append store, hop1]

theorem processFile_parse_error {force : Bool} {ledger : List AppliedMigration}
    {f : MigrationFile} {e : String}
    (hjson : strEndsWith f.filename ".json" = true)
    (hlk : ledgerLookup ledger (trimSuffixJson f.filename) = none)
    (hp : f.parsed = Except.error e) :
    processFile force ledger f = Except.error e := by
  unfold processFile
  rw [if_pos hjson, hlk, hp]

theorem processFile_bad_up {force : Bool} {ledger : List AppliedMigration}
    {f : MigrationFile} {m : Migration}
    (hjson : strEndsWith f.filename ".json" = true)
    (hlk : ledgerLookup ledger (trimSuffixJson f.filename) = none)
    (hp : f.parsed = Except.ok m) (hup : m.up.isEmpty = true) :
    processFile force ledger f = Except.error ("migration file " ++
      trimSuffixJson f.filename ++
      " does not include a valid up list of migrations to apply") := by
  unfold processFile
  rw [if_pos hjson, hlk, hp]
  simp [hup]

theorem processFile_bad_down {force : Bool} {ledger : List AppliedMigration}
    {f : MigrationFile} {m : Migration}
    (hjson : strEndsWith f.filename ".json" = true)
    (hlk : ledgerLookup ledger (trimSuffixJson f.filename) = none)
    (hp : f.parsed = Except.ok m)
    (hup : m.up.isEmpty = false) (hdn : m.down.isEmpty = false) :
    processFile force ledger f = Except.error ("migration file " ++
      trimSuffixJson f.filename ++
      " has a down list of migrations, but down migrations are not yet supported") := by
  unfold processFile
  rw [if_pos hjson, hlk, hp]
  simp [hup, hdn]

theorem processFile_skip_applied {force : Bool} {ledger : List AppliedMigration}
    {f : MigrationFile} {am : AppliedMigration}
    (hjson : strEndsWith f.filename ".json" = true)
    (hlk : ledgerLookup ledger (trimSuffixJson f.filename) = some am)
    (hok : force = true ∨ am.sha256 = f.hash) :
    processFile force ledger f = Except.ok none := by
  unfold processFile
  rw [if_pos hjson, hlk]
  rcases hok with hforce | heq
  · subst hforce; simp
  · simp [heq]

theorem processFile_tampered {ledger : List AppliedMigration}
    {f : MigrationFile} {am : AppliedMigration}
    (hjson : strEndsWith f.filename ".json" = true)
    (hlk : ledgerLookup ledger (trimSuffixJson f.filename) = some am)
    (hne : am.sha256 ≠ f.hash) :
    processFile false ledger f = Except.error
      ("migration file has been modified since last applied: " ++
        trimSuffixJson f.filename) := by
  unfold processFile
  rw [if_pos hjson, hlk]
  simp [hne]

theorem processFile_skip_suffix {force : Bool} {ledger : List AppliedMigration}
    {f : MigrationFile} (hjson : strEndsWith f.filename ".json" = false) :
    processFile force ledger f = Except.ok none := by
  unfold processFile
  rw [if_neg (by simp [hjson])]

theorem processFile_pending {force : Bool} {ledger : List AppliedMigration}
    {f : MigrationFile} {m : Migration}
    (hjson : strEndsWith f.filename ".json" = true)
    (hlk : ledgerLookup ledger (trimSuffixJson f.filename) = none)
    (hp : f.parsed = Except.ok m)
    (hup : m.up.isEmpty = false) (hdn : m.down.isEmpty = true) :
    processFile force ledger f =
      Except.ok (some ⟨trimSuffixJson f.filename, m, f.hash, f.filename⟩) := by
  unfold processFile
  rw [if_pos hjson, hlk, hp]
  simp [hup, hdn]

theorem processFile_ok_some {force : Bool} {ledger : List AppliedMigration}
    {f : MigrationFile} {pm : PendingMigration}
    (h : processFile force ledger f = Except.ok (some pm)) :
    strEndsWith f.filename ".json" = true ∧
    pm.migrationNumber = trimSuffixJson f.filename ∧
    pm.hash = f.hash ∧ pm.filePath = f.filename ∧
    ledgerLookup ledger (trimSuffixJson f.filename) = none ∧
    f.parsed = Except.ok pm.migration := by
  cases hjson : strEndsWith f.filename ".json" with
  | false =>
    rw [processFile_skip_suffix hjson] at h
    exact Option.noConfusion (Except.ok.inj h)
  | true =>
    cases hlk : ledgerLookup ledger (trimSuffixJson f.filename) with
    | some am =>
      cases hforce : force with
      | true =>
        rw [hforce] at h
        rw [processFile_skip_applied hjson hlk (Or.inl rfl)] at h
        exact Option.noConfusion (Except.ok.inj h)
      | false =>
        rw [hforce] at h
        by_cases heq : am.sha256 = f.hash
        · rw [processFile_skip_applied hjson hlk (Or.inr heq)] at h
          exact Option.noConfusion (Except.ok.inj h)
        · rw [processFile_tampered hjson hlk heq] at h
          exact Except.noConfusion h
    | none =>
      cases hp : f.parsed with
      | error e =>
        rw [processFile_parse_error hjson hlk hp] at h
        exact Except.noConfusion h
      | ok m =>
        cases hup : m.up.isEmpty with
        | true =>
          rw [processFile_bad_up hjson hlk hp hup] at h
          exact Except.noConfusion h
        | false =>
          cases hdn : m.down.isEmpty with
          | false =>
            rw [processFile_bad_down hjson hlk hp hup hdn] at h
            exact Except.noConfusion h
          | true =>
            rw [processFile_pending hjson hlk hp hup hdn] at h
            injection h with h1
            injection h1 with h2
            subst h2
            refine ⟨rfl, ?_, ?_, ?_, rfl, rfl⟩ <;> simp

theorem charListLe_total : ∀ (a b : List Char),
    charListLe a b = true ∨ charListLe b a = true
  | [], _ => Or.inl rfl
  | _ :: _, [] => Or.inr rfl
  | x :: xs, y :: ys => by
    rcases Nat.lt_trichotomy x.toNat y.toNat with h | h | h
    · exact Or.inl (by simp [charListLe, h])
    · rcases charListLe_total xs ys with h1 | h1
      · exact Or.inl (by simp [charListLe, h, h1])
      · exact Or.inr (by simp [charListLe, h, h1])
    · exact Or.inr (by simp [charListLe, h])

theorem charListLe_trans : ∀ (a b c : List Char),
    charListLe a b = true → charListLe b c = true → charListLe a c = true
  | [], _, _, _, _ => rfl
  | _ :: _, [], _, hab, _ => by simp [charListLe] at hab
  | _ :: _, _ :: _, [], _, hbc => by simp [charListLe] at hbc
  | x :: xs, y :: ys, z :: zs, hab, hbc => by
    simp only [charListLe] at hab hbc ⊢
    by_cases hxy : x.toNat < y.toNat
    · by_cases hyz : y.toNat < z.toNat
      · simp [show x.toNat < z.toNat by omega]
      · by_cases hzy : z.toNat < y.toNat
        · simp [hyz, hzy] at hbc
        · simp [show x.toNat < z.toNat by omega]
    · by_cases hyx : y.toNat < x.toNat
      · simp [hxy, hyx] at hab
      · simp [hxy, hyx] at hab
        by_cases hyz : y.toNat < z.toNat
        · simp [show x.toNat < z.toNat by omega]
        · by_cases hzy : z.toNat < y.toNat
          · simp [hyz, hzy] at hbc
          · simp [hyz, hzy] at hbc
            simp [show ¬ x.toNat < z.toNat by omega, show ¬ z.toNat < x.toNat by omega]
            exact charListLe_trans xs ys zs hab hbc

theorem sortFiles_sorted (dir : List MigrationFile) :
    (sortFiles dir).Pairwise fileLe := by
  haveI : IsTotal MigrationFile fileLe :=
    ⟨fun a b => charListLe_total a.filename.data b.filename.data⟩
  haveI : IsTrans MigrationFile fileLe :=
    ⟨fun a b c => charListLe_trans a.filename.data b.filename.data c.filename.data⟩
  exact List.sorted_insertionSort fileLe dir

theorem mem_sortFiles {dir : List MigrationFile} {f : MigrationFile} :
    f ∈ sortFiles dir ↔ f ∈ dir :=
  (List.perm_insertionSort fileLe dir).mem_iff

theorem processFile_ok_none {force : Bool} {ledger : List AppliedMigration}
    {f : MigrationFile} (h : processFile force ledger f = Except.ok none) :
    strEndsWith f.filename ".json" = false ∨
    ∃ am, ledgerLookup ledger (trimSuffixJson f.filename) = some am := by
  cases hjson : strEndsWith f.filename ".json" with
  | false => exact Or.inl rfl
  | true =>
    cases hlk : ledgerLookup ledger (trimSuffixJson f.filename) with
    | some am => exact Or.inr ⟨am, rfl⟩
    | none =>
      cases hp : f.parsed with
      | error e =>
        rw [processFile_parse_error hjson hlk hp] at h
        exact Except.noConfusion h
      | ok m =>
        cases hup : m.up.isEmpty with
        | true =>
          rw [processFile_bad_up hjson hlk hp hup] at h
          exact Except.noConfusion h
        | false =>
          cases hdn : m.down.isEmpty with
          | false =>
            rw [processFile_bad_down hjson hlk hp hup hdn] at h
            exact Except.noConfusion h
          | true =>
            rw [processFile_pending hjson hlk hp hup hdn] at h
            exact Option.noConfusion (Except.ok.inj h)

theorem collectGo_lookup_none {force : Bool} {ledger : List AppliedMigration} :
    ∀ (fs : List MigrationFile) (pms : List PendingMigration),
      collectGo force ledger fs = Except.ok pms →
      ∀ pm ∈ pms, ledgerLookup ledger pm.migrationNumber = none
  | [], pms, h => by
    simp only [collectGo] at h
    cases Except.ok.inj h
    intro pm hpm
    exact absurd hpm (List.not_mem_nil pm)
  | f :: rest, pms, h => by
    simp only [collectGo] at h
    cases hpf : processFile force ledger f with
    | error e =>
      rw [hpf] at h
      exact Except.noConfusion h
    | ok o =>
      rw [hpf] at h
      cases o with
      | none => exact collectGo_lookup_none rest pms h
      | some pm0 =>
        simp only at h
        cases hrec : collectGo force ledger rest with
        | error e =>
          rw [hrec] at h
          exact Except.noConfusion h
        | ok pms2 =>
          rw [hrec] at h
          cases Except.ok.inj h
          intro pm hpm
          rcases List.mem_cons.mp hpm with hpm0 | hpm2
          · subst hpm0
            obtain ⟨_, hid, _, _, hlk, _⟩ := processFile_ok_some hpf
            rw [hid]
            exact hlk
          · exact collectGo_lookup_none rest pms2 hrec pm hpm2

theorem collectGo_tampered_errors {ledger : List AppliedMigration}
    {am : AppliedMigration} :
    ∀ (fs : List MigrationFile) (f : MigrationFile), f ∈ fs →
      strEndsWith f.filename ".json" = true →
      ledgerLookup ledger (trimSuffixJson f.filename) = some am →
      am.sha256 ≠ f.hash →
      ∃ e, collectGo false ledger fs = Except.error e
  | [], f, hmem, _, _, _ => absurd hmem (List.not_mem_nil f)
  | g :: rest, f, hmem, hjson, hlk, hne => by
    rcases List.mem_cons.mp hmem with heq | hmem2
    · subst heq
      have hco : collectGo false ledger (f :: rest) =
          Except.error ("migration file has been modified since last applied: " ++
            trimSuffixJson f.filename) := by
        simp only [collectGo, processFile_tampered hjson hlk hne]
      exact ⟨_, hco⟩
    · cases hpf : processFile false ledger g with
      | error e => exact ⟨e, by simp only [collectGo, hpf]⟩
      | ok o =>
        obtain ⟨e, he⟩ := collectGo_tampered_errors rest f hmem2 hjson hlk hne
        cases o with
        | none => exact ⟨e, by simp only [collectGo, hpf]; exact he⟩
        | some pm => exact ⟨e, by simp only [collectGo, hpf, he]⟩

theorem collectGo_force_ok {ledger : List AppliedMigration} :
    ∀ (fs : List MigrationFile), (∀ g ∈ fs, goodFile g) →
      ∃ pms, collectGo true ledger fs = Except.ok pms
  | [], _ => ⟨[], rfl⟩
  | f :: rest, hall => by
    obtain ⟨pms, hrec⟩ := collectGo_force_ok rest fun g hg => hall g (List.mem_cons_of_mem f hg)
    cases hjson : strEndsWith f.filename ".json" with
    | false =>
      exact ⟨pms, by simp only [collectGo, processFile_skip_suffix hjson]; exact hrec⟩
    | true =>
      cases hlk : ledgerLookup ledger (trimSuffixJson f.filename) with
      | some am =>
        exact ⟨pms, by
          simp only [collectGo, processFile_skip_applied hjson hlk (Or.inl rfl)]
          exact hrec⟩
      | none =>
        obtain ⟨m, hp, hup, hdn⟩ := hall f (List.mem_cons_self f rest) hjson
        refine ⟨⟨trimSuffixJson f.filename, m, f.hash, f.filename⟩ :: pms, ?_⟩
        simp only [collectGo, processFile_pending hjson hlk hp hup hdn, hrec]

theorem collectGo_applied_hash {ledger : List AppliedMigration} :
    ∀ (fs : List MigrationFile) (pms : List PendingMigration),
      collectGo false ledger fs = Except.ok pms →
      ∀ f ∈ fs, strEndsWith f.filename ".json" = true →
      ∀ am, ledgerLookup ledger (trimSuffixJson f.filename) = some am →
      am.sha256 = f.hash
  | [], _, _, f, hmem, _, _, _ => absurd hmem (List.not_mem_nil f)
  | g :: rest, pms, h, f, hmem, hjson, am, hlk => by
    simp only [collectGo] at h
    rcases List.mem_cons.mp hmem with heq | hmem2
    · subst heq
      by_contra hne
      rw [processFile_tampered hjson hlk hne] at h
      exact Except.noConfusion h
    · cases hpf : processFile false ledger g with
      | error e =>
        rw [hpf] at h
        exact Except.noConfusion h
      | ok o =>
        rw [hpf] at h
        cases o with
        | none => exact collectGo_applied_hash rest pms h f hmem2 hjson am hlk
        | some pm0 =>
          simp only at h
          cases hrec : collectGo false ledger rest with
          | error e =>
            rw [hrec] at h
            exact Except.noConfusion h
          | ok pms2 => exact collectGo_applied_hash rest pms2 hrec f hmem2 hjson am hlk

theorem collectGo_new_pending {force : Bool} {ledger : List AppliedMigration} :
    ∀ (fs : List MigrationFile) (pms : List PendingMigration),
      collectGo force ledger fs = Except.ok pms →
      ∀ f ∈ fs, strEndsWith f.filename ".json" = true →
      ledgerLookup ledger (trimSuffixJson f.filename) = none →
      ∃ pm ∈ pms, pm.migrationNumber = trimSuffixJson f.filename ∧ pm.hash = f.hash
  | [], _, _, f, hmem, _, _ => absurd hmem (List.not_mem_nil f)
  | g :: rest, pms, h, f, hmem, hjson, hlk => by
    simp only [collectGo] at h
    cases hpf : processFile force ledger g with
    | error e =>
      rw [hpf] at h
      exact Except.noConfusion h
    | ok o =>
      rw [hpf] at h
      rcases List.mem_cons.mp hmem with heq | hmem2
      · subst heq
        cases o with
        | none =>
          rcases processFile_ok_none hpf with hj | ⟨am, ham⟩
          · rw [hjson] at hj
            exact Bool.noConfusion hj
          · rw [hlk] at ham
            exact Option.noConfusion ham
        | some pm0 =>
          simp only at h
          cases hrec : collectGo force ledger rest with
          | error e =>
            rw [hrec] at h
            exact Except.noConfusion h
          | ok pms2 =>
            rw [hrec] at h
            cases Except.ok.inj h
            obtain ⟨_, hid, hh, _, _, _⟩ := processFile_ok_some hpf
            exact ⟨pm0, List.mem_cons_self pm0 pms2, hid, hh⟩
      · cases o with
        | none => exact collectGo_new_pending rest pms h f hmem2 hjson hlk
        | some pm0 =>
          simp only at h
          cases hrec : collectGo force ledger rest with
          | error e =>
            rw [hrec] at h
            exact Except.noConfusion h
          | ok pms2 =>
            rw [hrec] at h
            cases Except.ok.inj h
            obtain ⟨pm, hpm, hid, hh⟩ := collectGo_new_pending rest pms2 hrec f hmem2 hjson hlk
            exact ⟨pm, List.mem_cons_of_mem pm0 hpm, hid, hh⟩

theorem collectGo_ids_sublist {force : Bool} {ledger : List AppliedMigration} :
    ∀ (fs : List MigrationFile) (pms : List PendingMigration),
      collectGo force ledger fs = Except.ok pms →
      (pms.map (·.migrationNumber)).Sublist (jsonIds fs)
  | [], pms, h => by
    simp only [collectGo] at h
    cases Except.ok.inj h
    exact List.Sublist.refl _
  | f :: rest, pms, h => by
    simp only [collectGo] at h
    cases hpf : processFile force ledger f with
    | error e =>
      rw [hpf] at h
      exact Except.noConfusion h
    | ok o =>
      rw [hpf] at h
      cases o with
      | none =>
        have hsub := collectGo_ids_sublist rest pms h
        cases hj : jsonId f with
        | none => simpa [jsonIds, List.filterMap_cons, hj] using hsub
        | some i =>
          simp only [jsonIds, List.filterMap_cons, hj]
          exact hsub.cons i
      | some pm0 =>
        simp only at h
        cases hrec : collectGo force ledger rest with
        | error e =>
          rw [hrec] at h
          exact Except.noConfusion h
        | ok pms2 =>
          rw [hrec] at h
          cases Except.ok.inj h
          obtain ⟨hjson, hid, _, _, _, _⟩ := processFile_ok_some hpf
          have hsub := collectGo_ids_sublist rest pms2 hrec
          simp only [jsonIds, List.filterMap_cons, jsonId, hjson, if_pos, List.map_cons, hid]
          exact hsub.cons₂ (trimSuffixJson f.filename)

theorem collectGo_paths_sublist {force : Bool} {ledger : List AppliedMigration} :
    ∀ (fs : List MigrationFile) (pms : List PendingMigration),
      collectGo force ledger fs = Except.ok pms →
      (pms.map (·.filePath)).Sublist (fs.map (·.filename))
  | [], pms, h => by
    simp only [collectGo] at h
    cases Except.ok.inj h
    exact List.Sublist.refl _
  | f :: rest, pms, h => by
    simp only [collectGo] at h
    cases hpf : processFile force ledger f with
    | error e =>
      rw [hpf] at h
      exact Except.noConfusion h
    | ok o =>
      rw [hpf] at h
      cases o with
      | none =>
        have hsub := collectGo_paths_sublist rest pms h
        simp only [List.map_cons]
        exact hsub.cons f.filename
      | some pm0 =>
        simp only at h
        cases hrec : collectGo force ledger rest with
        | error e =>
          rw [hrec] at h
          exact Except.noConfusion h
        | ok pms2 =>
          rw [hrec] at h
          cases Except.ok.inj h
          obtain ⟨_, _, _, hpath, _, _⟩ := processFile_ok_some hpf
          have hsub := collectGo_paths_sublist rest pms2 hrec
          simp only [List.map_cons, hpath]
          exact hsub.cons₂ f.filename

theorem collectGo_all_applied {force : Bool} {ledger2 : List AppliedMigration} :
    ∀ (fs : List MigrationFile),
      (∀ f ∈ fs, strEndsWith f.filename ".json" = true →
        ∃ am, ledgerLookup ledger2 (trimSuffixJson f.filename) = some am ∧
          am.sha256 = f.hash) →
      collectGo force ledger2 fs = Except.ok []
  | [], _ => rfl
  | f :: rest, hall => by
    have hrec : collectGo force ledger2 rest = Except.ok [] :=
      collectGo_all_applied rest fun g hg => hall g (List.mem_cons_of_mem f hg)
    cases hjson : strEndsWith f.filename ".json" with
    | false =>
      simp only [collectGo, processFile_skip_suffix hjson]
      exact hrec
    | true =>
      obtain ⟨am, hlk, heq⟩ := hall f (List.mem_cons_self f rest) hjson
      simp only [collectGo, processFile_skip_applied hjson hlk (Or.inr heq)]
      exact hrec

theorem ledgerLookup_append (l1 l2 : List AppliedMigration) (i : String) :
    ledgerLookup (l1 ++ l2) i =
      match ledgerLookup l1 i with
      | some r => some r
      | none => ledgerLookup l2 i := by
  induction l1 with
  | nil => rfl
  | cons r rest ih =>
    by_cases hr : r.migrationNumber = i
    · simp [ledgerLookup, hr]
    · simp [ledgerLookup, hr, ih]

theorem ledgerLookup_pairs :
    ∀ (recs : List AppliedMigration) (i h : String),
      (i, h) ∈ recs.map (fun r => (r.migrationNumber, r.sha256)) →
      (recs.map (·.migrationNumber)).Nodup →
      ∃ r, ledgerLookup recs i = some r ∧ r.sha256 = h
  | [], i, h, hmem, _ => absurd hmem (List.not_mem_nil (i, h))
  | r :: rest, i, h, hmem, hnd => by
    obtain ⟨hnotin, hnd2⟩ := List.nodup_cons.mp hnd
    rcases List.mem_cons.mp hmem with hh | ht
    · have hi : r.migrationNumber = i := congrArg Prod.fst hh.symm
      have hs : r.sha256 = h := congrArg Prod.snd hh.symm
      exact ⟨r, by simp [ledgerLookup, hi], hs⟩
    · have hmemlist : i ∈ rest.map (fun x => x.migrationNumber) := by
        obtain ⟨r2, hr2mem, hr2eq⟩ := List.mem_map.mp ht
        have h2 : r2.migrationNumber = i := congrArg Prod.fst hr2eq
        exact h2 ▸ List.mem_map_of_mem (fun x => x.migrationNumber) hr2mem
      have hne : r.migrationNumber ≠ i := fun he =>
        hnotin (by show r.migrationNumber ∈ _; rw [he]; exact hmemlist)
      obtain ⟨r2, hr2, hs2⟩ := ledgerLookup_pairs rest i h ht hnd2
      exact ⟨r2, by simp [ledgerLookup, hne, hr2], hs2⟩

theorem claim_c1_legacy_rollback_targets_failing_op :
    (runPending storeFailB rbOkW false pendingC1 [] []).fst =
      [Event.execOp "000001" opA, Event.execOp "000001" opB,
       Event.rollbackAction (RollbackAction.delColl "B")] ∧
    (runPending storeFailB rbOkW false pendingC1 [] []).snd =
      some "migration operation failed for migration 000001: duplicate name" :=
  ⟨rfl, rfl⟩

theorem claim_c2_counterexample :
    migSeq (runPending storeFailB rbOkW false pendingC2 [] []).fst =
      ["000001", "000002"] ∧
    rollbackActsEv (runPending storeFailB rbOkW false pendingC2 [] []).fst =
      [RollbackAction.delColl "B"] ∧
    (runPending storeFailB rbOkW false pendingC2 [] []).snd.isSome = true ∧
    ledgerIds (runPending storeFailB rbOkW false pendingC2 [] []).fst = [] :=
  ⟨rfl, rfl, rfl, rfl⟩

theorem claim_c2_amended (store : StoreFn) (rb : RbFn)
    (pending : List PendingMigration) (evs : List Event) (e : String)
    (h : runPending store rb false pending [] [] = (evs, some e)) :
    ledgerIds evs = [] ∧
    ∃ op, (succeededBeforeFailure store (allOps pending)).snd = some op ∧
      rollbackActsEv evs = (autoRollbackRun rb [legacyOperationOf op]).fst := by
  obtain ⟨hl, op, hop, hr⟩ := runPending_failed_legacy store rb pending [] [] evs e h
  exact ⟨by simp [ledgerIds, hl], op, hop, hr⟩

theorem claim_c2_amended_witness :
    ledgerIds (runPending storeFailB rbOkW false pendingC2 [] []).fst = [] ∧
    ∃ op, (succeededBeforeFailure storeFailB (allOps pendingC2)).snd = some op ∧
      rollbackActsEv (runPending storeFailB rbOkW false pendingC2 [] []).fst =
        (autoRollbackRun rbOkW [legacyOperationOf op]).fst :=
  claim_c2_amended storeFailB rbOkW pendingC2 _ _ rfl

theorem claim_c3_batch_scope (store : StoreFn) (rb : RbFn)
    (pending : List PendingMigration) (evs : List Event) (res : Option String)
    (h : runPending store rb true pending [] [] = (evs, res)) :
    (∀ e, res = some e →
      ledgerIds evs = [] ∧
      rollbackActsEv evs =
        (autoRollbackGo rb
          ((succeededBeforeFailure store (allOps pending)).fst).reverse).fst) ∧
    (res = none →
      ledgerIds evs = pending.map (·.migrationNumber) ∧ rollbackActsEv evs = []) := by
  constructor
  · intro e hres
    subst hres
    obtain ⟨hl, hr, _⟩ := runPending_failed_batch store rb pending [] [] evs e h
    refine ⟨by simp [ledgerIds, hl], ?_⟩
    rw [hr]
    simp [autoRollbackRun]
  · intro hres
    subst hres
    obtain ⟨_, hl, hr⟩ := runPending_success_shape store rb true pending [] [] evs h
    refine ⟨?_, hr⟩
    have := congrArg (List.map Prod.fst) hl
    simpa [ledgerIds, List.map_map, Function.comp] using this

theorem claim_c3_batch_scope_witness :
    ledgerIds (runPending storeFailB rbOkW true pendingC2 [] []).fst = [] ∧
    rollbackActsEv (runPending storeFailB rbOkW true pendingC2 [] []).fst =
      (autoRollbackGo rbOkW
        ((succeededBeforeFailure storeFailB (allOps pendingC2)).fst).reverse).fst :=
  (claim_c3_batch_scope storeFailB rbOkW pendingC2 _ _ rfl).1
    "migration operation failed for migration 000002: duplicate name" rfl

theorem claim_c4_deleteGraph_missing_from_dispatch :
    "deleteGraph" ∈ specOperationTable ∧
    dispatchTypes.contains "deleteGraph" = false ∧
    (∀ t ∈ specOperationTable, t ≠ "deleteGraph" → dispatchTypes.contains t = true) ∧
    (∀ (store : StoreFn) (name : String) (options : List (String × Value)),
      dispatchOp store ⟨"deleteGraph", name, options⟩ =
        (false, Except.error "unsupported operation type: deleteGraph")) := by
  refine ⟨by simp [specOperationTable], rfl, ?_, fun store name options => rfl⟩
  intro t ht hne
  simp only [specOperationTable, List.mem_cons, List.not_mem_nil, or_false] at ht
  rcases ht with rfl | rfl | rfl | rfl | rfl | rfl | rfl | rfl | rfl | rfl | rfl | rfl <;>
    first
    | rfl
    | exact absurd rfl hne

theorem claim_c4_witness :
    dispatchOp storeOkW ⟨"deleteGraph", "social", []⟩ =
      (false, Except.error "unsupported operation type: deleteGraph") :=
  claim_c4_deleteGraph_missing_from_dispatch.2.2.2 storeOkW "social" []

theorem claim_c5_addEdgeDefinition_swallows_store_error :
    addEdgeDefinitionGo okGraph failingCreateEdgeDef "social" edgeOpts =
      Except.ok () ∧
    (addEdgeDefinitionWithTracking okGraph failingCreateEdgeDef "social" edgeOpts).snd =
      none ∧
    failingCreateEdgeDef "social" ⟨"user_reports_event", ["users"], ["events"]⟩ =
      Except.error "edge collection missing" :=
  ⟨rfl, rfl, rfl⟩

theorem lookupKey_mem :
    ∀ {doc : List (String × Value)} {k : String} {v : Value},
      lookupKey doc k = some v → (k, v) ∈ doc
  | [], _, _, h => Option.noConfusion h
  | (k0, v0) :: rest, k, v, h => by
    by_cases hk : k0 = k
    · subst hk
      simp only [lookupKey, if_pos rfl] at h
      cases Option.some.inj h
      exact List.mem_cons_self _ _
    · simp only [lookupKey, if_neg hk] at h
      exact List.mem_cons_of_mem _ (lookupKey_mem h)

theorem claim_c6_counterexample :
    processUpdateSpecialValues "2024-01-02T03:04:05Z" updOpts = updOpts ∧
    lookupKey
      (updateDocumentWithTracking "2024-01-02T03:04:05Z" okColl okRead okUpd
        "books" updOpts).2.1 "hash" = some (Value.str "SHA256(isbn)") :=
  ⟨rfl, rfl⟩

theorem processDoc_no_marker (now : String) (sha : String → String)
    (doc : List (String × Value))
    (hdoc : ∀ p ∈ doc, ∀ v0 : String, p.snd = Value.str v0 →
      v0 ≠ "NOW()" ∧ (strStartsWith v0 "SHA256(" && strEndsWith v0 ")") = false) :
    processDocumentValues now sha doc = (doc, SubstResult.ok) := by
  suffices hks : ∀ ks, processKeys now sha ks doc = (doc, SubstResult.ok) from hks _
  intro ks
  induction ks with
  | nil => rfl
  | cons k ks ih =>
    have hstep : substStep now sha doc k = (doc, SubstResult.ok) := by
      unfold substStep
      cases hlkp : lookupKey doc k with
      | none => rfl
      | some v =>
        have hpmem := lookupKey_mem hlkp
        cases v with
        | str v0 =>
          obtain ⟨hnow, hsha⟩ := hdoc (k, Value.str v0) hpmem v0 rfl
          have h1 : (match Value.str v0 with
              | Value.str "NOW()" => setKey doc k (Value.str now)
              | _ => doc) = doc := by
            split
            · next heq => exact absurd (Value.str.inj heq) hnow
            · rfl
          show (let doc1 := match Value.str v0 with
              | Value.str "NOW()" => setKey doc k (Value.str now)
              | _ => doc
            match Value.str v0 with
            | Value.str val =>
              if strStartsWith val "SHA256(" && strEndsWith val ")" then
                match lookupKey doc1 (strTrim ((val.drop 7).dropRight 1)) with
                | some (Value.str s) =>
                    (setKey doc1 k (Value.str (sha s)), SubstResult.ok)
                | some _ =>
                    (doc1, SubstResult.crash "interface conversion: interface is not string")
                | none =>
                    (doc1, SubstResult.err "no string field found in document for computing hash")
              else (doc1, SubstResult.ok)
            | _ => (doc1, SubstResult.ok)) = (doc, SubstResult.ok)
          rw [h1]
          simp [hsha]
        | null => rfl
        | int _ => rfl
        | bool _ => rfl
        | arr _ => rfl
        | obj _ => rfl
    simp only [processKeys, hstep]
    exact ih

theorem updateEntryNoMarker (now k0 : String) (v : Value)
    (hne : v ≠ Value.str "NOW()") :
    (match (k0, v) with
      | (k, Value.str "NOW()") => (k, Value.str now)
      | kv => kv) = (k0, v) := by
  split
  · next k heq => exact absurd (congrArg Prod.snd heq) (by simpa using hne)
  · rfl

theorem processUpdate_no_marker (now : String) (options : List (String × Value))
    (hopt : ∀ p ∈ options, p.snd ≠ Value.str "NOW()") :
    processUpdateSpecialValues now options = options := by
  induction options with
  | nil => rfl
  | cons p rest ih =>
    obtain ⟨k0, v⟩ := p
    have hrest : processUpdateSpecialValues now rest = rest :=
      ih fun q hq => hopt q (List.mem_cons_of_mem _ hq)
    have hne : v ≠ Value.str "NOW()" := by
      simpa using hopt (k0, v) (List.mem_cons_self _ _)
    simp only [processUpdateSpecialValues, List.map_cons] at hrest ⊢
    rw [updateEntryNoMarker now k0 v hne, hrest]

theorem processDoc_sha_pair (now : String) (sha : String → String) (s : String)
    (hs1 : s ≠ "NOW()")
    (hs2 : (strStartsWith s "SHA256(" && strEndsWith s ")") = false) :
    processDocumentValues now sha
        [("isbn", Value.str s), ("hash", Value.str "SHA256(isbn)")] =
      ([("isbn", Value.str s), ("hash", Value.str (sha s))], SubstResult.ok) := by
  have hstep1 : substStep now sha
      [("isbn", Value.str s), ("hash", Value.str "SHA256(isbn)")] "isbn" =
      ([("isbn", Value.str s), ("hash", Value.str "SHA256(isbn)")], SubstResult.ok) := by
    unfold substStep
    have h1 : (match Value.str s with
        | Value.str "NOW()" =>
            setKey [("isbn", Value.str s), ("hash", Value.str "SHA256(isbn)")]
              "isbn" (Value.str now)
        | _ => [("isbn", Value.str s), ("hash", Value.str "SHA256(isbn)")]) =
        [("isbn", Value.str s), ("hash", Value.str "SHA256(isbn)")] := by
      split
      · next heq => exact absurd (Value.str.inj heq) hs1
      · rfl
    show (let doc1 := match Value.str s with
        | Value.str "NOW()" =>
            setKey [("isbn", Value.str s), ("hash", Value.str "SHA256(isbn)")]
              "isbn" (Value.str now)
        | _ => [("isbn", Value.str s), ("hash", Value.str "SHA256(isbn)")]
      match Value.str s with
      | Value.str val =>
        if strStartsWith val "SHA256(" && strEndsWith val ")" then
          match lookupKey doc1 (strTrim ((val.drop 7).dropRight 1)) with
          | some (Value.str s0) => (setKey doc1 "isbn" (Value.str (sha s0)), SubstResult.ok)
          | some _ =>
              (doc1, SubstResult.crash "interface conversion: interface is not string")
          | none =>
              (doc1, SubstResult.err "no string field found in document for computing hash")
        else (doc1, SubstResult.ok)
      | _ => (doc1, SubstResult.ok)) =
      ([("isbn", Value.str s), ("hash", Value.str "SHA256(isbn)")], SubstResult.ok)
    rw [h1]
    simp [hs2]
  show processKeys now sha ["isbn", "hash"]
      [("isbn", Value.str s), ("hash", Value.str "SHA256(isbn)")] = _
  simp only [processKeys, hstep1]
  rfl

theorem claim_c6_amended (now : String) (sha : String → String) (s : String)
    (n : Int) (k : String) (hs1 : s ≠ "NOW()")
    (hs2 : (strStartsWith s "SHA256(" && strEndsWith s ")") = false) :
    processDocumentValues now sha [("createdAt", Value.str "NOW()")] =
      ([("createdAt", Value.str now)], SubstResult.ok) ∧
    processDocumentValues now sha
        [("isbn", Value.str s), ("hash", Value.str "SHA256(isbn)")] =
      ([("isbn", Value.str s), ("hash", Value.str (sha s))], SubstResult.ok) ∧
    (processDocumentValues now sha [("hash", Value.str "SHA256(isbn)")]).snd =
      SubstResult.err "no string field found in document for computing hash" ∧
    (processDocumentValues now sha
        [("isbn", Value.int n), ("hash", Value.str "SHA256(isbn)")]).snd =
      SubstResult.crash "interface conversion: interface is not string" ∧
    processUpdateSpecialValues now [(k, Value.str "NOW()")] =
      [(k, Value.str now)] ∧
    processUpdateSpecialValues now
        [("hash", Value.str "SHA256(isbn)"), ("isbn", Value.str s)] =
      [("hash", Value.str "SHA256(isbn)"), ("isbn", Value.str s)] := by
  refine ⟨rfl, processDoc_sha_pair now sha s hs1 hs2, rfl, rfl, rfl, ?_⟩
  refine processUpdate_no_marker now _ ?_
  intro p hp
  rcases List.mem_cons.mp hp with rfl | hp2
  · simp
  · rcases List.mem_cons.mp hp2 with rfl | hp3
    · simp only []
      intro hv
      exact hs1 (Value.str.inj hv)
    · exact absurd hp3 (List.not_mem_nil p)

theorem claim_c6_amended_witness :
    processDocumentValues "2024-01-02T03:04:05Z" idDigest
        [("isbn", Value.str "123"), ("hash", Value.str "SHA256(isbn)")] =
      ([("isbn", Value.str "123"), ("hash", Value.str (idDigest "123"))],
        SubstResult.ok) :=
  (claim_c6_amended "2024-01-02T03:04:05Z" idDigest "123" 7 "updatedAt"
    (by decide) (by decide)).2.1

theorem claim_c10_counterexample :
    (addDocumentWithTracking "2024-01-02T03:04:05Z" idDigest okColl okCreateDoc
        "books" addOpts).2.1 =
      [("document", Value.obj [("createdAt", Value.str "2024-01-02T03:04:05Z")])] ∧
    [("document", Value.obj [("createdAt", Value.str "2024-01-02T03:04:05Z")])] ≠
      addOpts :=
  ⟨rfl, by simp [addOpts]⟩

theorem claim_c10_amended (now : String) (sha : String → String) :
    (∀ doc : List (String × Value),
      (∀ p ∈ doc, ∀ v0 : String, p.snd = Value.str v0 →
        v0 ≠ "NOW()" ∧ (strStartsWith v0 "SHA256(" && strEndsWith v0 ")") = false) →
      processDocumentValues now sha doc = (doc, SubstResult.ok)) ∧
    (∀ options : List (String × Value),
      (∀ p ∈ options, p.snd ≠ Value.str "NOW()") →
      processUpdateSpecialValues now options = options) :=
  ⟨fun doc hdoc => processDoc_no_marker now sha doc hdoc,
   fun options hopt => processUpdate_no_marker now options hopt⟩

theorem claim_c10_amended_witness :
    processDocumentValues "2024-01-02T03:04:05Z" idDigest
        [("title", Value.str "dune"), ("n", Value.int 3)] =
      ([("title", Value.str "dune"), ("n", Value.int 3)], SubstResult.ok) :=
  (claim_c10_amended "2024-01-02T03:04:05Z" idDigest).1 _ (by
    intro p hp v0 hv
    rcases List.mem_cons.mp hp with rfl | hp2
    · cases Value.str.inj hv
      exact ⟨by decide, by decide⟩
    · rcases List.mem_cons.mp hp2 with rfl | hp3
      · exact absurd hv (by simp)
      · exact absurd hp3 (List.not_mem_nil p))

theorem claim_c7_tamper_detection (ledger : List AppliedMigration)
    (dir : List MigrationFile) (f : MigrationFile) (am : AppliedMigration)
    (hmem : f ∈ dir)
    (hjson : strEndsWith f.filename ".json" = true)
    (hlk : ledgerLookup ledger (trimSuffixJson f.filename) = some am)
    (hne : am.sha256 ≠ f.hash)
    (hclean : ∀ g ∈ dir, goodFile g) :
    (∀ (store : StoreFn) (rb : RbFn) (autoRB : Bool),
      ∃ e, migrateArangoDatabase store rb false autoRB ledger dir = ([], some e)) ∧
    (∃ pending, collectPendingMigrations true ledger dir = Except.ok pending) ∧
    (∀ pending, collectPendingMigrations true ledger dir = Except.ok pending →
      ∀ pm ∈ pending, pm.migrationNumber ≠ trimSuffixJson f.filename) := by
  refine ⟨?_, ?_, ?_⟩
  · intro store rb autoRB
    obtain ⟨e, he⟩ :=
      collectGo_tampered_errors (sortFiles dir) f (mem_sortFiles.mpr hmem) hjson hlk hne
    exact ⟨e, by simp only [migrateArangoDatabase, collectPendingMigrations, he]⟩
  · exact collectGo_force_ok (sortFiles dir) fun g hg => hclean g (mem_sortFiles.mp hg)
  · intro pending hcol pm hpm heq
    have hnone := collectGo_lookup_none (sortFiles dir) pending hcol pm hpm
    rw [heq, hlk] at hnone
    exact Option.noConfusion hnone

theorem claim_c7_witness :
    ∃ e, migrateArangoDatabase storeOkW rbOkW false false tamperLedger
      [tamperedFile] = ([], some e) :=
  (claim_c7_tamper_detection tamperLedger [tamperedFile] tamperedFile
    ⟨"0001", "oldhash", []⟩ (List.mem_singleton.mpr rfl) (by decide) rfl
    (by decide)
    (by
      intro g hg _
      rw [List.mem_singleton.mp hg]
      exact ⟨⟨"d", [opA], []⟩, rfl, rfl, rfl⟩)).1 storeOkW rbOkW false

theorem claim_c9_amended (force : Bool) (ledger : List AppliedMigration)
    (dir : List MigrationFile) (pending : List PendingMigration)
    (hcol : collectPendingMigrations force ledger dir = Except.ok pending) :
    pending.Pairwise
      (fun a b => charListLe a.filePath.data b.filePath.data = true) ∧
    ∀ (store : StoreFn) (rb : RbFn) (autoRB : Bool) (evs : List Event),
      runPending store rb autoRB pending [] [] = (evs, none) →
      migSeq evs = expectedMigSeq pending := by
  constructor
  · have hsorted : (sortFiles dir).Pairwise fileLe := sortFiles_sorted dir
    have hsub := collectGo_paths_sublist (sortFiles dir) pending hcol
    have hmap : ((sortFiles dir).map (·.filename)).Pairwise
        (fun a b => charListLe a.data b.data = true) :=
      List.pairwise_map.mpr hsorted
    have hpp := List.Pairwise.sublist hsub hmap
    exact List.pairwise_map.mp hpp
  · intro store rb autoRB evs hrun
    exact (runPending_success_shape store rb autoRB pending [] [] evs hrun).1

theorem claim_c9_amended_witness :
    pendingXY.Pairwise
      (fun a b => charListLe a.filePath.data b.filePath.data = true) ∧
    migSeq (runPending storeOkW rbOkW false pendingXY [] []).fst =
      expectedMigSeq pendingXY := by
  have h := claim_c9_amended false [] [fileX, fileY] pendingXY rfl
  exact ⟨h.1, h.2 storeOkW rbOkW false _ rfl⟩

theorem claim_c9_counterexample :
    migSeq (migrateArangoDatabase storeOkW rbOkW false false [] [file2, file10]).fst =
      ["10", "2"] ∧
    (migrateArangoDatabase storeOkW rbOkW false false [] [file2, file10]).snd =
      none :=
  ⟨rfl, rfl⟩

theorem claim_c8_idempotent (store store2 : StoreFn) (rb rb2 : RbFn)
    (autoRB autoRB2 : Bool) (ledger : List AppliedMigration)
    (dir : List MigrationFile) (evs : List Event)
    (hnd : (jsonIds dir).Nodup)
    (h : migrateArangoDatabase store rb false autoRB ledger dir = (evs, none)) :
    migrateArangoDatabase store2 rb2 false autoRB2 (ledgerAfter ledger evs) dir =
      ([], none) := by
  have hndsorted : (jsonIds (sortFiles dir)).Nodup :=
    (((List.perm_insertionSort fileLe dir).filterMap jsonId).nodup_iff).mpr hnd
  simp only [migrateArangoDatabase, collectPendingMigrations] at h ⊢
  cases hcol : collectGo false ledger (sortFiles dir) with
  | error e =>
    rw [hcol] at h
    simp only at h
    injection h with h1 h2
    exact Option.noConfusion h2
  | ok pending =>
    rw [hcol] at h
    simp only at h
    cases pending with
    | nil =>
      simp only [List.isEmpty_nil, if_true] at h
      injection h with h1 h2
      subst h1
      have hla : ledgerAfter ledger [] = ledger := by
        simp [ledgerAfter, ledgerRecsOf]
      rw [hla, hcol]
      simp
    | cons pm0 rest0 =>
      simp only [List.isEmpty_cons, Bool.false_eq_true, if_false, reduceIte] at h
      obtain ⟨hmigseq, hpairs, hrba⟩ :=
        runPending_success_shape store rb autoRB _ [] [] evs h
      have hall : ∀ f ∈ sortFiles dir, strEndsWith f.filename ".json" = true →
          ∃ am, ledgerLookup (ledger ++ ledgerRecsOf evs)
            (trimSuffixJson f.filename) = some am ∧ am.sha256 = f.hash := by
        intro f hf hjson
        rw [ledgerLookup_append]
        cases hlk : ledgerLookup ledger (trimSuffixJson f.filename) with
        | some am =>
          have heq := collectGo_applied_hash (sortFiles dir) _ hcol f hf hjson am hlk
          exact ⟨am, rfl, heq⟩
        | none =>
          obtain ⟨pm, hpm, hid, hh⟩ :=
            collectGo_new_pending (sortFiles dir) _ hcol f hf hjson hlk
          have hpair : (trimSuffixJson f.filename, f.hash) ∈
              (ledgerRecsOf evs).map (fun r => (r.migrationNumber, r.sha256)) := by
            rw [hpairs]
            simp only [List.map_nil, List.nil_append]
            exact List.mem_map.mpr ⟨pm, hpm, by rw [hid, hh]⟩
          have hidseq : (ledgerRecsOf evs).map (·.migrationNumber) =
              (pm0 :: rest0).map (·.migrationNumber) := by
            have hfst := congrArg (List.map Prod.fst) hpairs
            simpa [List.map_map, Function.comp] using hfst
          have hndpend : ((pm0 :: rest0).map (·.migrationNumber)).Nodup :=
            List.Nodup.sublist (collectGo_ids_sublist (sortFiles dir) _ hcol) hndsorted
          have hndrecs : ((ledgerRecsOf evs).map (·.migrationNumber)).Nodup := by
            rw [hidseq]
            exact hndpend
          obtain ⟨r, hr, hrs⟩ := ledgerLookup_pairs (ledgerRecsOf evs) _ _ hpair hndrecs
          exact ⟨r, hr, hrs⟩
      have hcol2 : collectGo false (ledger ++ ledgerRecsOf evs) (sortFiles dir) =
          Except.ok [] := collectGo_all_applied (sortFiles dir) hall
      rw [show ledgerAfter ledger evs = ledger ++ ledgerRecsOf evs from rfl, hcol2]
      simp

theorem claim_c8_idempotent_witness :
    migrateArangoDatabase storeFailB rbOkW false false
      (ledgerAfter [] (migrateArangoDatabase storeOkW rbOkW false false [] [c8File]).fst)
      [c8File] = ([], none) :=
  claim_c8_idempotent storeOkW storeFailB rbOkW rbOkW false false [] [c8File]
    (migrateArangoDatabase storeOkW rbOkW false false [] [c8File]).fst
    (by decide) rfl

end GoArangoMigrator
